import Mathlib

/-!
Verification development for the FINN C++ driver (finn-cpp-driver).

The definitions below are shallow embeddings of the driver's C++ sources:
  * `FinnDatatypes.hpp`   — the quantized datatype descriptors,
  * `RingBuffer.hpp`      — both the current two-variant ring buffer
                            (`src/FINNCppDriver/utils`) and the legacy
                            validity-tracking ring (`src/utils`),
  * `DeviceBuffer.hpp`    — the legacy device input/output buffers,
  * `DeviceHandler.cpp`   — name-dispatched store/run/read/retrieve,
  * `BaseDriver.hpp`      — the `inferSynchronous` overload family.

Machine integers are modelled as `Nat`/`Int`.  Where the C++ code funnels
integer values through IEEE-754 `double` (the datatype range checks) or
`float` (`requiredElements`), the conversion is modelled exactly as
round-to-nearest-even to a 53- resp. 24-bit significand (`fl`); every other
operation in those code paths (negation, comparison, division by a power of
two) is exact on the floating-point values involved, so no further
floating-point semantics are needed.
-/

namespace Finn

/-! ### Binary length and floating-point rounding of integers -/

/-- Number of binary digits of `n`, computed with explicit fuel so that the
kernel can evaluate it.  For `n < 2^fuel` this is the exact bit length; all
inputs in this development are far below `2^128`. -/
def bitLenAux (fuel n : Nat) : Nat :=
  match fuel with
  | 0 => 0
  | f + 1 => if n = 0 then 0 else bitLenAux f (n / 2) + 1

/-- Bit length with fuel 128 (exact for `n < 2^128`). -/
def bitLen (n : Nat) : Nat := bitLenAux 128 n

/-- Round `n` to the nearest multiple of `2^e`, ties to the even multiple.
This is the rounding step of IEEE-754 round-to-nearest-even. -/
def roundAtPow (e n : Nat) : Nat :=
  let p := 2 ^ e
  let q := n / p
  let r := n % p
  if 2 * r < p then q * p
  else if p < 2 * r then (q + 1) * p
  else if q % 2 = 0 then q * p else (q + 1) * p

/-- The value of the IEEE-754 floating-point number nearest to the natural
number `n`, for a format with a `prec`-bit significand (`prec = 53` for
`double`, `prec = 24` for `float`).  This models `static_cast<double>(n)` /
`static_cast<float>(n)` under the default rounding mode. -/
def fl (prec n : Nat) : Nat :=
  if bitLen n ≤ prec then n else roundAtPow (bitLen n - prec) n

/-- `fl` extended to integers (conversion of a signed integral value to
`double`/`float` rounds the magnitude). -/
def flInt (prec : Nat) (z : Int) : Int :=
  if 0 ≤ z then (fl prec z.toNat : Int) else -(fl prec (-z).toNat : Int)

/-! ### FinnUtils helpers

`FinnUtils.h` itself is not part of the source snapshot; only its unit tests
(`unittests/utils/FinnUtilsTest.cpp`) and its callers are.  The next three
definitions are therefore modelled from the spec and from the test
expectations, as noted on each. -/

/-- Modelled from the spec: `FinnUtils::shapeToElements` (declared in the
missing `FinnUtils.h`) is the element count of a shape, "product of
dimensions" per spec §3; `FinnUtilsTest.cpp` pins `{1,3,120} ↦ 360` and
additionally `{} ↦ 0`. -/
def shapeToElements (s : List Nat) : Nat :=
  if s = [] then 0 else s.prod

/-- Modelled from the spec: `FinnUtils::innermostDimension` (missing
`FinnUtils.h`) returns the innermost (last) dimension; `FinnUtilsTest.cpp`
pins `{1,3,120} ↦ 120`. -/
def innermostDimension (s : List Nat) : Nat := s.getLastD 0

/-- Modelled from the spec: `FinnUtils::getActualBufferSize` (missing
`FinnUtils.h`) is the page-aligned device allocation size for a requested
element count (spec §3: "size P rounded up to a page-aligned device
allocation unit").  `FinnUtilsTest.cpp` pins the behaviour: the next power
of two that is at least the request, with a minimum of 4096
(`120 ↦ 4096`, `0 ↦ 4096`, `4096 ↦ 4096`, `5000 ↦ 8192`, `8200 ↦ 16384`). -/
def getActualBufferSize (n : Nat) : Nat :=
  max 4096 (2 ^ bitLen (n - 1))

/-! ### Datatype descriptors (`FinnDatatypes.hpp`)

`allowed` for the integer/unsigned variants compares the value against
`min()`/`max()`, which are `double`s; the comparison converts the integral
argument to `double` as well.  Both conversions are modelled by
`fl 53`/`flInt 53`.  The argument type `T` is modelled as a signed integral
type of unbounded range (`Int`); every `int64_t` value embeds. -/

/-- `DatatypeInt<B>::min()` = `-static_cast<double>(1UL << (B-1))`
(FinnDatatypes.hpp:396).  The power of two is exactly representable for
`B ≤ 64`, so only the cast of the magnitude is rounded. -/
def intMin (B : Nat) : Int := -(fl 53 (2 ^ (B - 1)) : Int)

/-- `DatatypeInt<B>::max()` = `static_cast<double>((1UL << (B-1)) - 1)`
(FinnDatatypes.hpp:400). -/
def intMax (B : Nat) : Int := (fl 53 (2 ^ (B - 1) - 1) : Int)

/-- `DatatypeInt<B>::allowedImpl(val)` = `val >= min() && val <= max()`
(FinnDatatypes.hpp:420-423), with `val` converted to `double` for the
comparisons. -/
def allowedInt (B : Nat) (v : Int) : Bool :=
  decide (intMin B ≤ flInt 53 v) && decide (flInt 53 v ≤ intMax B)

/-- `DatatypeUInt<B>::max()` = `static_cast<double>((__uint128_t(1) << B) - 1)`
(FinnDatatypes.hpp:599); `min()` = 0. -/
def uintMax (B : Nat) : Int := (fl 53 (2 ^ B - 1) : Int)

/-- `DatatypeUInt<B>::allowedImpl(val)` = `val >= 0 && val <= max()`
(FinnDatatypes.hpp:620-623). -/
def allowedUInt (B : Nat) (v : Int) : Bool :=
  decide ((0 : Int) ≤ flInt 53 v) && decide (flInt 53 v ≤ uintMax B)

/-- `DatatypeBipolar::allowedImpl(val)` = `val == -1 || val == 1`
(FinnDatatypes.hpp:721-723); integer comparisons, no doubles involved. -/
def allowedBipolar (v : Int) : Bool :=
  decide (v = -1) || decide (v = 1)

/-- `DatatypeTernary::allowedImpl(val)` = `val == -1 || val == 1 || val == 0`
(FinnDatatypes.hpp:815-817). -/
def allowedTernary (v : Int) : Bool :=
  decide (v = -1) || decide (v = 1) || decide (v = 0)

/-- `Datatype::requiredElements<T>()` (FinnDatatypes.hpp:153-161) for a
datatype of bit-width `b` and a host word type of `w = sizeof(T)*8` bits:
returns 1 when `b < w`, otherwise
`FinnUtils::ceil(float(b) / (float(sizeof(T)) * 8.0f))`.  The division by
the power of two `w` is exact in `float`, so only the conversion of `b`
rounds (`fl 24`); `FinnUtils::ceil` is modelled from the spec and from
`FinnUtilsTest.cpp` (`0.1 ↦ 1`, `0.7 ↦ 1`, `0 ↦ 0`, `1.1 ↦ 2`) as the
mathematical ceiling, here `⌈fl 24 b / w⌉ = (fl 24 b + (w-1)) / w`. -/
def requiredElements (b w : Nat) : Nat :=
  if b < w then 1 else (fl 24 b + (w - 1)) / w

/-! ### The current ring buffer (`src/FINNCppDriver/utils/RingBuffer.hpp`)

`RingBuffer<T, multiThreaded>` wraps a `boost::circular_buffer<T>` of
capacity `pElementsPerPart * pParts`; data lives at the front, `store`
appends at the back, `read` consumes one part from the front.  Elements of
`T` are modelled as `Nat`.  The single-threaded operations are modelled
directly; a successful multi-threaded `store`/`read` performs the same
state transition (blocking merely delays it until the guard holds). -/

structure RingBuffer where
  parts : Nat
  elementsPerPart : Nat
  /-- Current contents of the circular buffer, oldest element first. -/
  data : List Nat
deriving Repr, DecidableEq

/-- `buffer.capacity()` = `pElementsPerPart * pParts` (RingBuffer.hpp:67). -/
def RingBuffer.capacity (rb : RingBuffer) : Nat :=
  rb.elementsPerPart * rb.parts

/-- `freeSpaceNotLocked()` = `buffer.capacity() - buffer.size()`
(RingBuffer.hpp:56). -/
def RingBuffer.freeSpace (rb : RingBuffer) : Nat :=
  rb.capacity - rb.data.length

/-- `size()` = `buffer.size() / elementsPerPart` (RingBuffer.hpp:159-166):
the occupancy in parts. -/
def RingBuffer.occupancy (rb : RingBuffer) : Nat :=
  rb.data.length / rb.elementsPerPart

/-- The constructor `RingBuffer(pParts, pElementsPerPart)`
(RingBuffer.hpp:67-73): errors iff `pElementsPerPart * pParts == 0`,
otherwise yields an empty buffer of that capacity. -/
def mkRingBuffer (pParts pElementsPerPart : Nat) : Except String RingBuffer :=
  if pElementsPerPart * pParts = 0 then
    .error "It is not possible to create a buffer of size 0!"
  else
    .ok { parts := pParts, elementsPerPart := pElementsPerPart, data := [] }

/-- Error kinds of `RingBuffer::store` per the spec taxonomy (§7); in the
code both are `std::runtime_error`s distinguished by message
(RingBuffer.hpp:183, 186). -/
inductive StoreError where
  | lengthError
  | capacityError
deriving Repr, DecidableEq

/-- `store(first, last)` in the single-threaded variant
(RingBuffer.hpp:179-213): length error if `datasize % elementsPerPart ≠ 0`,
capacity error if `datasize > buffer.capacity()`, `false` (no change) if
`datasize > freeSpace`, otherwise append and return `true`. -/
def RingBuffer.store (rb : RingBuffer) (src : List Nat) :
    Except StoreError (Bool × RingBuffer) :=
  let datasize := src.length
  if datasize % rb.elementsPerPart ≠ 0 then .error .lengthError
  else if rb.capacity < datasize then .error .capacityError
  else if rb.freeSpace < datasize then .ok (false, rb)
  else .ok (true, { rb with data := rb.data ++ src })

/-- `read(outputIt)` in the single-threaded variant (RingBuffer.hpp:277-287):
`none` (C++ `false`) if fewer than `elementsPerPart` elements are buffered,
otherwise the first part is copied out and erased. -/
def RingBuffer.readOne (rb : RingBuffer) : Option (List Nat × RingBuffer) :=
  if rb.data.length < rb.elementsPerPart then none
  else some (rb.data.take rb.elementsPerPart,
             { rb with data := rb.data.drop rb.elementsPerPart })

/-- One ring-buffer operation of an interleaving. -/
inductive RingOp where
  | store (src : List Nat)
  | readOne
deriving Repr, DecidableEq

/-- Run a sequence of operations, requiring every one of them to succeed
(`store` returns `true`, `read` finds a part); any failure aborts. -/
def RingBuffer.exec (rb : RingBuffer) : List RingOp → Option RingBuffer
  | [] => some rb
  | .store src :: ops =>
    match rb.store src with
    | .ok (true, rb') => rb'.exec ops
    | .ok (false, _) => none
    | .error _ => none
  | .readOne :: ops =>
    match rb.readOne with
    | some (_, rb') => rb'.exec ops
    | none => none

/-- Number of parts stored by a list of operations (each `store` call stores
`src.length / P` parts). -/
def storedParts (p : Nat) : List RingOp → Nat
  | [] => 0
  | .store src :: ops => src.length / p + storedParts p ops
  | .readOne :: ops => storedParts p ops

/-- Number of parts read by a list of operations. -/
def readParts : List RingOp → Nat
  | [] => 0
  | .store _ :: ops => readParts ops
  | .readOne :: ops => readParts ops + 1

/-! ### The legacy ring buffer (`src/utils/RingBuffer.hpp`)

This older revision tracks a validity flag per part together with a head
(store) and a read pointer.  It is the ring used by the legacy
`DeviceBuffer.hpp`.  Mutexes guard the transitions but do not change them;
the state transition of each call is modelled. -/

structure LegacyRingBuffer where
  /-- The backing `boost::circular_buffer<T>`, of length
  `parts * elementsPerPart` after construction. -/
  buffer : List Nat
  /-- `validParts`, one flag per part. -/
  validParts : List Bool
  headPart : Nat
  readPart : Nat
  parts : Nat
  elementsPerPart : Nat
deriving Repr, DecidableEq

/-- `elementIndex(partIndex, offset)` =
`(partIndex * elementsPerPart + offset) % buffer.size()`
(legacy RingBuffer.hpp:81). -/
def LegacyRingBuffer.elementIndex (rb : LegacyRingBuffer)
    (partIndex offset : Nat) : Nat :=
  (partIndex * rb.elementsPerPart + offset) % rb.buffer.length

/-- The legacy constructor `RingBuffer(pParts, pElementsPerPart)`
(legacy RingBuffer.hpp:45-53): zero-filled storage, all parts invalid,
both pointers at 0.  (No size-zero check in this revision.) -/
def mkLegacyRingBuffer (pParts pElementsPerPart : Nat) : LegacyRingBuffer :=
  { buffer := List.replicate (pElementsPerPart * pParts) 0
    validParts := List.replicate pParts false
    headPart := 0
    readPart := 0
    parts := pParts
    elementsPerPart := pElementsPerPart }

/-- The search loop of legacy `read` (RingBuffer.hpp:239-253): the offset
`i < parts` of the first valid part at `(readPart + i) % parts`, if any. -/
def LegacyRingBuffer.findValidOffset (rb : LegacyRingBuffer) : Option Nat :=
  (List.range rb.parts).find?
    (fun i => rb.validParts.getD ((rb.readPart + i) % rb.parts) false)

/-- Legacy `read(outData, datasize)` (RingBuffer.hpp:232-256): length error
unless `datasize == elementsPerPart`; otherwise the first valid part from
the read pointer is copied out, the read pointer advances past it, and —
exactly as in the source (line 248) — its validity flag is set to `true`
(not `false`), so the part stays valid. -/
def LegacyRingBuffer.read (rb : LegacyRingBuffer) (datasize : Nat) :
    Except String (Option (List Nat × LegacyRingBuffer)) :=
  if datasize ≠ rb.elementsPerPart then
    .error "Size mismatch when reading vector from Ring Buffer!"
  else
    match rb.findValidOffset with
    | none => .ok none
    | some i =>
      let indexP := (rb.readPart + i) % rb.parts
      let out := (List.range rb.elementsPerPart).map
        (fun j => rb.buffer.getD (rb.elementIndex indexP j) 0)
      .ok (some (out,
        { rb with
          validParts := rb.validParts.set indexP true
          readPart := (indexP + 1) % rb.parts }))

/-- `countValidParts()` (legacy RingBuffer.hpp:144-147). -/
def LegacyRingBuffer.countValidParts (rb : LegacyRingBuffer) : Nat :=
  rb.validParts.countP (· = true)

/-- Whether any part of the legacy ring is valid ("the ring holds a
complete part"). -/
def LegacyRingBuffer.hasValid (rb : LegacyRingBuffer) : Bool :=
  rb.validParts.any id

/-- The `SIZE_SPECIFIER` values used by the legacy ring's `size`
(legacy RingBuffer.hpp:124-137). -/
inductive SizeSpec where
  | elements
  | bytes
  | parts
  | elementsPerPart
deriving Repr, DecidableEq

/-- Legacy `RingBuffer::size(ss)` (RingBuffer.hpp:124-137), for `T = uint8_t`
(`sizeof(T) = 1`). -/
def LegacyRingBuffer.size (rb : LegacyRingBuffer) : SizeSpec → Nat
  | .elements => rb.buffer.length
  | .bytes => rb.buffer.length * 1
  | .parts => rb.parts
  | .elementsPerPart => rb.elementsPerPart

/-! ### The legacy device buffer (`src/core/DeviceBuffer.hpp`) -/

/-- Host-visible state of a legacy `DeviceBuffer<uint8_t, F>`: the mapped
DMA region and the ring.  `mapSize` is the element count of the map. -/
structure DeviceBufferState where
  mapSize : Nat
  map : List Nat
  ring : LegacyRingBuffer
deriving Repr, DecidableEq

/-- The `DeviceBuffer` constructor (DeviceBuffer.hpp:38-73) for element type
`uint8_t` (`sizeof(T)*8 = wT`) and a FINN datatype of bit-width `bitwF`:
`mapSize = getActualBufferSize(shapeToElements(shapePacked))`, the ring is
`RingBuffer(ringBufferSizeFactor, mapSize)`, and construction errors unless
`shapeToElements(shapeNormal) == shapeToElements(shapeFolded)` and the
packed innermost dimension equals
`bitwF * innermostDimension(shapeFolded) / wT + 1` (integer division,
DeviceBuffer.hpp:60-72). -/
def mkDeviceBuffer (bitwF wT : Nat) (shapeNormal shapeFolded shapePacked : List Nat)
    (ringBufferSizeFactor : Nat) : Except String DeviceBufferState :=
  let mapSize := getActualBufferSize (shapeToElements shapePacked)
  let calculatedInnermostDimension :=
    bitwF * innermostDimension shapeFolded / wT + 1
  if shapeToElements shapeNormal ≠ shapeToElements shapeFolded then
    .error "Mismatches in shapes! shape_normal and shape_folded should amount to the same number of elements!"
  else if innermostDimension shapePacked ≠ calculatedInnermostDimension then
    .error "Mismatches in shapes! shape_packed innermost dimension does not equal the calculated innermost dimension"
  else
    .ok { mapSize := mapSize
          map := List.replicate mapSize 0
          ring := mkLegacyRingBuffer ringBufferSizeFactor mapSize }

/-- `DeviceInputBuffer::size(ss)` forwards to the ring
(DeviceBuffer.hpp:184). -/
def DeviceBufferState.size (s : DeviceBufferState) (ss : SizeSpec) : Nat :=
  s.ring.size ss

/-- Terminal states of an XRT kernel-run (`ert_cmd_state`), as far as the
driver distinguishes them. -/
inductive ErtState where
  | completed
  | timeout
  | newState
  | err
deriving Repr, DecidableEq

/-- `DeviceInputBuffer::run()` (DeviceBuffer.hpp:167-175): under the run
mutex, `loadMap()` reads one part from the ring into the map
(DeviceBuffer.hpp:157-160, `read(map, mapSize)`); on failure `run` returns
`false`.  Otherwise the map is synced to the device and the kernel run is
submitted and awaited (`execute`, DeviceBuffer.hpp:150-155) — the awaited
terminal state `ertResult` is discarded by the source — and `run` returns
`true`. -/
def DeviceBufferState.run (s : DeviceBufferState) (ertResult : ErtState) :
    Except String (Bool × DeviceBufferState) :=
  match s.ring.read s.mapSize with
  | .error e => .error e
  | .ok none => .ok (false, s)
  | .ok (some (out, ring')) =>
    -- sync-to-device and the kernel run (terminal state `ertResult`) do not
    -- change the host-visible state; `ertResult` is not inspected.
    .ok (true, { s with map := out, ring := ring' })

/-! ### The legacy device output buffer (`src/core/DeviceBuffer.hpp`) -/

/-- Host-visible state of a legacy `DeviceOutputBuffer<uint8_t, F>`: the
ring and the long-term storage (archive). -/
structure OutputBufferState where
  ring : LegacyRingBuffer
  longTermStorage : List (List Nat)
deriving Repr, DecidableEq

/-- One iteration of the loop in `archiveValidBufferParts`
(DeviceBuffer.hpp:290-296):
`longTermStorage.push_back(std::vector<T>(size(ELEMENTS_PER_PART)))`
appends a zero-filled vector, then
`ringBuffer.read(longTermStorage.back(), size(ELEMENTS_PER_PART))` is
called with the vector passed **by value** (the template parameter `C` of
legacy `read` is deduced as `std::vector<T>`), so the part data is written
to a discarded copy and only the ring's pointer/validity updates remain. -/
def OutputBufferState.archiveStep (s : OutputBufferState) : OutputBufferState :=
  let zeros := List.replicate (s.ring.size .elementsPerPart) 0
  match s.ring.read (s.ring.size .elementsPerPart) with
  | .ok (some (_, ring')) =>
    { s with longTermStorage := s.longTermStorage ++ [zeros], ring := ring' }
  | _ =>
    { s with longTermStorage := s.longTermStorage ++ [zeros] }

/-- `archiveValidBufferParts()` (DeviceBuffer.hpp:290-296): the loop body
above executed `ringBuffer.size(SIZE_SPECIFIER::PARTS)` — i.e. `parts`,
the ring's capacity, not its occupancy — times. -/
def OutputBufferState.archiveValidBufferParts (s : OutputBufferState) :
    OutputBufferState :=
  (List.range (s.ring.size .parts)).foldl (fun acc _ => acc.archiveStep) s

/-- `retrieveArchive()` (DeviceBuffer.hpp:303). -/
def OutputBufferState.retrieveArchive (s : OutputBufferState) : List (List Nat) :=
  s.longTermStorage

/-! ### Device handler dispatch (`src/FINNCppDriver/core/DeviceHandler.cpp`)

For the unknown-name error paths only the configured kernel names matter.
In every one of `store`/`run`/`retrieveResults`/`read` the source builds the
message the same way (DeviceHandler.cpp:127-135, 145-153, 155-166,
168-176): a fold `newlineFold` is accumulated over a buffer map with
`std::accumulate(map.begin(), map.end(), existingNames, newlineFold)` —
whose return value (the only place the names appear) is **discarded**, and
the unchanged local string `"Existing buffer names:"` is concatenated to
the message.  In `retrieveResults` and `read` the fold moreover iterates
`inputBufferMap` although the addressed direction is output. -/

/-- Substring test on character lists: does `hay` start with `pat`? -/
def startsWithChars : List Char → List Char → Bool
  | _, [] => true
  | [], _ :: _ => false
  | c :: cs, d :: ds => c = d && startsWithChars cs ds

/-- Substring test on character lists: does `pat` occur in `hay`? -/
def containsChars : List Char → List Char → Bool
  | hay, pat =>
    match hay with
    | [] => pat.isEmpty
    | _ :: rest => startsWithChars hay pat || containsChars rest pat

/-- Does the string `pat` occur as a substring of `hay`? -/
def strContains (hay pat : String) : Bool :=
  containsChars hay.data pat.data

/-- Name-relevant state of a `DeviceHandler`: the key sets of
`inputBufferMap` and `outputBufferMap`. -/
structure DeviceHandlerNames where
  inputNames : List String
  outputNames : List String
deriving Repr, DecidableEq

/-- The error message raised by `DeviceHandler::store` for an unknown
kernel name (DeviceHandler.cpp:127-135): the accumulated name list is
discarded, so the message ends with the bare header. -/
def storeErrorMessage (inputBufferKernelName : String) : String :=
  "[store] Tried accessing kernel/buffer with name " ++ inputBufferKernelName ++
    " but this kernel / buffer does not exist! " ++ "Existing buffer names:"

/-- The error message raised by `DeviceHandler::retrieveResults` for an
unknown kernel name (DeviceHandler.cpp:155-166); as in `store`, the
accumulated list (which would even come from `inputBufferMap`) is
discarded. -/
def retrieveErrorMessage (outputBufferKernelName : String) : String :=
  "[retrieve] Tried accessing kernel/buffer with name " ++ outputBufferKernelName ++
    " but this kernel / buffer does not exist! " ++ "Existing buffer names:"

/-- The name-lookup part of `DeviceHandler::store(data, name)`
(DeviceHandler.cpp:127-135). -/
def DeviceHandlerNames.storeLookup (h : DeviceHandlerNames) (name : String) :
    Except String Unit :=
  if name ∈ h.inputNames then .ok () else .error (storeErrorMessage name)

/-- The name-lookup part of `DeviceHandler::retrieveResults(name, force)`
(DeviceHandler.cpp:155-166). -/
def DeviceHandlerNames.retrieveLookup (h : DeviceHandlerNames) (name : String) :
    Except String Unit :=
  if name ∈ h.outputNames then .ok () else .error (retrieveErrorMessage name)

/-! ### The driver façade (`src/FINNCppDriver/core/BaseDriver.hpp`)

Only the plumbing of the force-archive flag is at issue (claim about the
`inferSynchronous` overloads); the packing/unpacking and the store/run/read
legs of the pipeline do not touch that flag and are elided.  The output
buffer that the flag finally reaches is the FINNCppDriver
`DeviceOutputBuffer`, which is not part of the source snapshot. -/

/-- Modelled from the spec: the FINNCppDriver `DeviceOutputBuffer` reached
through `Accelerator::retrieveResults` is missing from the snapshot; per
spec §4.5 and the glossary, force-archive means "drain any partial ring
contents of an output buffer into the archive before returning", after
which the archive is returned. -/
structure OutBuffer where
  /-- Parts currently buffered in the ring. -/
  ringParts : List (List Nat)
  archive : List (List Nat)
deriving Repr, DecidableEq

/-- Modelled from the spec: `retrieveResults(out, force)` — forced archival
drains the ring into the archive, then the archive is returned
(spec §4.5, `retrieve_archive` after optional `archive_valid`). -/
def retrieveResultsModel (out : OutBuffer) (forceArchival : Bool) :
    List (List Nat) :=
  if forceArchival then out.archive ++ out.ringParts else out.archive

/-- `BaseDriver::inferRaw(..., forceArchival)` (BaseDriver.hpp:236-263)
passes its `forceArchival` argument through to
`accelerator.retrieveResults` unchanged (line 256). -/
def inferRawModel (out : OutBuffer) (forceArchival : Bool) : List (List Nat) :=
  retrieveResultsModel out forceArchival

/-- The defaults stored by the `BaseDriver` constructor; `forceAchieval`
[sic] is the stored default force-archive flag (BaseDriver.hpp:53, 69-79). -/
structure DriverDefaults where
  forceAchieval : Bool
deriving Repr, DecidableEq

/-- The iterator overload
`inferSynchronous(first, last, ..., samples, forceArchival)`
(BaseDriver.hpp:192-198): packs, calls `inferRaw` with its own
`forceArchival` argument, unpacks. -/
def inferSynchronousIter (_d : DriverDefaults) (out : OutBuffer)
    (forceArchival : Bool) : List (List Nat) :=
  inferRawModel out forceArchival

/-- The iterator overload without explicit arguments
(BaseDriver.hpp:200-203): forwards the stored defaults, including
`forceAchieval`. -/
def inferSynchronousIterDefault (d : DriverDefaults) (out : OutBuffer) :
    List (List Nat) :=
  inferSynchronousIter d out d.forceAchieval

/-- The vector overload
`inferSynchronous(data, ..., samples, forceArchival)`
(BaseDriver.hpp:205-208): forwards to the iterator overload but — exactly
as in the source (line 207) — passes the member `forceAchieval` instead of
its own `forceArchival` parameter. -/
def inferSynchronousVec (d : DriverDefaults) (out : OutBuffer)
    (forceArchival : Bool) : List (List Nat) :=
  inferSynchronousIter d out d.forceAchieval

/-- The vector overload without explicit arguments (BaseDriver.hpp:210-213):
forwards the stored defaults. -/
def inferSynchronousVecDefault (d : DriverDefaults) (out : OutBuffer) :
    List (List Nat) :=
  inferSynchronousVec d out d.forceAchieval

/-! ## Theorems -/

/-! ### Properties of `bitLen` and `fl` -/

theorem bitLenAux_zero (f : Nat) : bitLenAux f 0 = 0 := by
  cases f <;> simp [bitLenAux]

theorem lt_two_pow_bitLenAux (f : Nat) :
    ∀ n, n < 2 ^ f → n < 2 ^ bitLenAux f n := by
  induction f with
  | zero =>
    intro n h
    simp only [pow_zero, Nat.lt_one_iff] at h
    subst h
    simp [bitLenAux]
  | succ f ih =>
    intro n h
    by_cases h0 : n = 0
    · subst h0; simp [bitLenAux]
    · simp only [bitLenAux, h0, if_false]
      have hdiv : n / 2 < 2 ^ f := by
        have h2 : n < 2 ^ f * 2 := by
          calc n < 2 ^ (f + 1) := h
          _ = 2 ^ f * 2 := by rw [pow_succ]
        exact Nat.div_lt_of_lt_mul (by omega)
      have hrec := ih (n / 2) hdiv
      rw [pow_succ]
      set m := 2 ^ bitLenAux f (n / 2) with hm
      omega

theorem two_pow_bitLenAux_pred_le (f : Nat) :
    ∀ n, 0 < n → 2 ^ (bitLenAux f n - 1) ≤ n := by
  induction f with
  | zero =>
    intro n hn
    simpa [bitLenAux] using hn
  | succ f ih =>
    intro n hn
    have h0 : n ≠ 0 := Nat.pos_iff_ne_zero.mp hn
    simp only [bitLenAux, h0, if_false]
    by_cases hd : n / 2 = 0
    · rw [hd, bitLenAux_zero]
      simpa using hn
    · have hrec := ih (n / 2) (Nat.pos_iff_ne_zero.mpr hd)
      rcases Nat.eq_zero_or_pos (bitLenAux f (n / 2)) with hb | hb
      · rw [hb]; simpa using hn
      · have hpow : 2 ^ (bitLenAux f (n / 2) + 1 - 1)
            = 2 ^ (bitLenAux f (n / 2) - 1) * 2 := by
          rw [Nat.add_sub_cancel, ← pow_succ, Nat.sub_add_cancel hb]
        rw [hpow]
        set m := 2 ^ (bitLenAux f (n / 2) - 1) with hm
        omega

theorem bitLenAux_le_fuel (f : Nat) : ∀ n, bitLenAux f n ≤ f := by
  induction f with
  | zero => intro n; simp [bitLenAux]
  | succ f ih =>
    intro n
    by_cases h0 : n = 0
    · subst h0; simp [bitLenAux]
    · simp only [bitLenAux, h0, if_false]
      exact Nat.succ_le_succ (ih (n / 2))

theorem bitLenAux_eq_fuel (f : Nat) : ∀ n, 2 ^ f ≤ n → bitLenAux f n = f := by
  induction f with
  | zero => intro n _; simp [bitLenAux]
  | succ f ih =>
    intro n h
    have hp : 0 < 2 ^ (f + 1) := Nat.pos_pow_of_pos _ (by omega)
    have h0 : n ≠ 0 := by omega
    simp only [bitLenAux, h0, if_false]
    have hdiv : 2 ^ f ≤ n / 2 := by
      rw [Nat.le_div_iff_mul_le (by omega)]
      calc 2 ^ f * 2 = 2 ^ (f + 1) := (pow_succ 2 f).symm
      _ ≤ n := h
    rw [ih (n / 2) hdiv]

theorem bitLen_le_of_lt {prec n : Nat} (h : n < 2 ^ prec) : bitLen n ≤ prec := by
  by_cases h0 : n = 0
  · subst h0; simp [bitLen, bitLenAux_zero]
  · by_contra hc
    have h1 : prec + 1 ≤ bitLen n := by omega
    have h2 : 2 ^ prec ≤ 2 ^ (bitLen n - 1) :=
      Nat.pow_le_pow_right (by omega) (by omega)
    have h3 : 2 ^ (bitLen n - 1) ≤ n :=
      two_pow_bitLenAux_pred_le 128 n (Nat.pos_iff_ne_zero.mpr h0)
    omega

theorem prec_lt_bitLen {prec n : Nat} (hprec : prec < 128) (h : 2 ^ prec ≤ n) :
    prec < bitLen n := by
  by_cases hbig : n < 2 ^ 128
  · have h1 : n < 2 ^ bitLen n := lt_two_pow_bitLenAux 128 n hbig
    have h2 : 2 ^ prec < 2 ^ bitLen n := by omega
    exact (Nat.pow_lt_pow_iff_right (by omega)).mp h2
  · have : bitLen n = 128 := bitLenAux_eq_fuel 128 n (by omega)
    omega

theorem fl_eq_of_lt {prec n : Nat} (h : n < 2 ^ prec) : fl prec n = n := by
  simp [fl, bitLen_le_of_lt h]

theorem div_pow_mul_pow_le_roundAtPow (e n : Nat) :
    n / 2 ^ e * 2 ^ e ≤ roundAtPow e n := by
  simp only [roundAtPow]
  split_ifs <;>
    exact Nat.mul_le_mul_right _ (by omega)

theorem two_pow_le_fl {prec n : Nat} (hp : 1 ≤ prec) (hprec : prec < 128)
    (h : 2 ^ prec ≤ n) : 2 ^ prec ≤ fl prec n := by
  have hbl : prec < bitLen n := prec_lt_bitLen hprec h
  simp only [fl, if_neg (by omega : ¬ bitLen n ≤ prec)]
  set e := bitLen n - prec with he
  have he1 : 1 ≤ e := by omega
  have hQ : 2 ^ prec ≤ n / 2 ^ e * 2 ^ e := by
    by_cases hbig : n < 2 ^ 128
    · have hn0 : 0 < n := by
        have : 0 < 2 ^ prec := Nat.pos_pow_of_pos _ (by omega)
        omega
      have hlow : 2 ^ (bitLen n - 1) ≤ n := two_pow_bitLenAux_pred_le 128 n hn0
      have hq : 2 ^ (prec - 1) ≤ n / 2 ^ e := by
        have h1 : 2 ^ (bitLen n - 1) / 2 ^ e ≤ n / 2 ^ e :=
          Nat.div_le_div_right hlow
        have h2 : 2 ^ (bitLen n - 1) / 2 ^ e = 2 ^ (bitLen n - 1 - e) :=
          Nat.pow_div (by omega) (by omega)
        have h3 : bitLen n - 1 - e = prec - 1 := by omega
        rw [h2, h3] at h1
        exact h1
      calc 2 ^ prec = 2 ^ (prec - 1) * 2 ^ 1 := by
            rw [← pow_add]
            congr 1
            omega
      _ ≤ n / 2 ^ e * 2 ^ e := by
            exact Nat.mul_le_mul hq (Nat.pow_le_pow_right (by omega) he1)
    · have hfl : bitLen n = 128 := bitLenAux_eq_fuel 128 n (by omega)
      have hq : 2 ^ prec ≤ n / 2 ^ e := by
        have h1 : 2 ^ 128 / 2 ^ e ≤ n / 2 ^ e := Nat.div_le_div_right (by omega)
        have h2 : 2 ^ 128 / 2 ^ e = 2 ^ (128 - e) := by
          exact Nat.pow_div (by omega) (by omega)
        have h3 : (128 : Nat) - e = prec := by omega
        rw [h2, h3] at h1
        exact h1
      calc 2 ^ prec ≤ n / 2 ^ e := hq
      _ ≤ n / 2 ^ e * 2 ^ e :=
          Nat.le_mul_of_pos_right _ (Nat.pos_pow_of_pos _ (by omega))
  exact le_trans hQ (div_pow_mul_pow_le_roundAtPow e n)

theorem fl_zero (prec : Nat) : fl prec 0 = 0 := by
  simp [fl, bitLen, bitLenAux_zero]

theorem flInt_nonneg_iff {prec : Nat} (hp : 1 ≤ prec) (hprec : prec < 128)
    (v : Int) : 0 ≤ flInt prec v ↔ 0 ≤ v := by
  unfold flInt
  split_ifs with h
  · simp only [h, iff_true]
    exact Int.natCast_nonneg _
  · push_neg at h
    constructor
    · intro habs
      exfalso
      have hvpos : 0 < -v := by omega
      have hn : 1 ≤ (-v).toNat := by omega
      have hfl : 1 ≤ fl prec (-v).toNat := by
        by_cases hlt : (-v).toNat < 2 ^ prec
        · rw [fl_eq_of_lt hlt]; exact hn
        · have := two_pow_le_fl hp hprec (by omega : 2 ^ prec ≤ (-v).toNat)
          have : 0 < 2 ^ prec := Nat.pos_pow_of_pos _ (by omega)
          omega
      have : (1 : Int) ≤ (fl prec (-v).toNat : Int) := by exact_mod_cast hfl
      omega
    · intro hv; omega

theorem flInt_neg (prec : Nat) (z : Int) : flInt prec (-z) = -flInt prec z := by
  rcases lt_trichotomy z 0 with h | h | h
  · have h1 : ¬ (0 ≤ z) := by omega
    have h2 : 0 ≤ -z := by omega
    simp only [flInt, if_pos h2, if_neg h1, neg_neg]
  · subst h
    simp [flInt, fl_zero]
  · have h1 : 0 ≤ z := by omega
    have h2 : ¬ (0 ≤ -z) := by omega
    simp only [flInt, if_pos h1, if_neg h2, neg_neg]

theorem flInt_le_iff {prec : Nat} (hp : 1 ≤ prec) (hprec : prec < 128)
    (m : Int) (hm0 : 0 ≤ m) (hm : m < 2 ^ prec) (v : Int) :
    flInt prec v ≤ m ↔ v ≤ m := by
  constructor
  · intro h
    by_contra hc
    push_neg at hc
    have hv0 : 0 ≤ v := by omega
    have hfl : flInt prec v = (fl prec v.toNat : Int) := by
      simp [flInt, hv0]
    by_cases hlt : v.toNat < 2 ^ prec
    · rw [fl_eq_of_lt hlt] at hfl
      rw [Int.toNat_of_nonneg hv0] at hfl
      omega
    · have h2 : 2 ^ prec ≤ fl prec v.toNat :=
        two_pow_le_fl hp hprec (by omega)
      have h3 : ((2 : Nat) ^ prec : Int) ≤ (fl prec v.toNat : Int) := by
        exact_mod_cast h2
      have h4 : ((2 : Nat) ^ prec : Int) = (2 : Int) ^ prec := by push_cast; ring
      omega
  · intro h
    by_cases hv0 : 0 ≤ v
    · have hlt : v.toNat < 2 ^ prec := by
        have : v < (2 : Int) ^ prec := by omega
        have h4 : ((2 : Nat) ^ prec : Int) = (2 : Int) ^ prec := by push_cast; ring
        omega
      simp only [flInt, if_pos hv0, fl_eq_of_lt hlt, Int.toNat_of_nonneg hv0]
      exact h
    · have : ¬ (0 ≤ flInt prec v) := by
        rw [flInt_nonneg_iff hp hprec]
        exact hv0
      omega

theorem flInt_neg_le_iff {prec : Nat} (hp : 1 ≤ prec) (hprec : prec < 128)
    (m : Int) (hm0 : 0 ≤ m) (hm : m < 2 ^ prec) (v : Int) :
    -m ≤ flInt prec v ↔ -m ≤ v := by
  have h1 : -m ≤ flInt prec v ↔ flInt prec (-v) ≤ m := by
    rw [flInt_neg]
    omega
  rw [h1, flInt_le_iff hp hprec m hm0 hm (-v)]
  omega

/-! ### C6: datatype domains -/

/-- C6 (amended): for every integer datatype variant of bit-width `b ≤ 53`
and every integral value `v`, `allowed(v)` holds iff `v` lies in the
specified domain — unsigned⟨b⟩ exactly `[0, 2^b − 1]`, signed⟨b⟩ exactly
`[−2^(b−1), 2^(b−1) − 1]` — and bipolar accepts exactly `{−1, +1}`,
ternary exactly `{−1, 0, +1}`, for any bit-width.  For `b > 53` the
`double`-rounded bounds used by the code admit values beyond the specified
domain (see the counterexample). -/
theorem allowed_iff_specified_domain (b : Nat) (hb1 : 1 ≤ b) (hb : b ≤ 53)
    (v : Int) :
    (allowedInt b v = true ↔ -(2 ^ (b - 1) : Int) ≤ v ∧ v ≤ 2 ^ (b - 1) - 1) ∧
    (allowedUInt b v = true ↔ 0 ≤ v ∧ v ≤ 2 ^ b - 1) ∧
    (allowedBipolar v = true ↔ (v = -1 ∨ v = 1)) ∧
    (allowedTernary v = true ↔ (v = -1 ∨ v = 0 ∨ v = 1)) := by
  have hlt : (2 : Nat) ^ (b - 1) < 2 ^ 53 :=
    Nat.pow_lt_pow_right (by omega) (by omega)
  have hble : (2 : Nat) ^ b ≤ 2 ^ 53 := Nat.pow_le_pow_right (by omega) hb
  have hone : (1 : Nat) ≤ 2 ^ (b - 1) := Nat.one_le_two_pow
  have honeb : (1 : Nat) ≤ 2 ^ b := Nat.one_le_two_pow
  have hmin : intMin b = -((2 : Int) ^ (b - 1)) := by
    unfold intMin
    rw [fl_eq_of_lt hlt]
    push_cast
    ring
  have hmax : intMax b = (2 : Int) ^ (b - 1) - 1 := by
    unfold intMax
    rw [fl_eq_of_lt (by omega : (2 : Nat) ^ (b - 1) - 1 < 2 ^ 53)]
    rw [Nat.cast_sub hone]
    push_cast
    ring
  have humax : uintMax b = (2 : Int) ^ b - 1 := by
    unfold uintMax
    rw [fl_eq_of_lt (by omega : (2 : Nat) ^ b - 1 < 2 ^ 53)]
    rw [Nat.cast_sub honeb]
    push_cast
    ring
  have hIlt : (2 : Int) ^ (b - 1) < 2 ^ 53 := by exact_mod_cast hlt
  have hIone : (1 : Int) ≤ 2 ^ (b - 1) := by exact_mod_cast hone
  have hIble : (2 : Int) ^ b ≤ 2 ^ 53 := by exact_mod_cast hble
  have hIoneb : (1 : Int) ≤ 2 ^ b := by exact_mod_cast honeb
  refine ⟨?_, ?_, ?_, ?_⟩
  · simp only [allowedInt, Bool.and_eq_true, decide_eq_true_eq, hmin, hmax]
    exact and_congr
      (flInt_neg_le_iff (by omega) (by omega) _ (by omega) hIlt v)
      (flInt_le_iff (by omega) (by omega) _ (by omega) (by omega) v)
  · simp only [allowedUInt, Bool.and_eq_true, decide_eq_true_eq, humax]
    exact and_congr
      (flInt_nonneg_iff (by omega) (by omega) v)
      (flInt_le_iff (by omega) (by omega) _ (by omega) (by omega) v)
  · simp only [allowedBipolar, Bool.or_eq_true, decide_eq_true_eq]
  · simp only [allowedTernary, Bool.or_eq_true, decide_eq_true_eq]
    tauto

/-- C6 (witness): the amended statement applied at `b = 4`, `v = 7`. -/
theorem allowed_iff_specified_domain_witness :
    (allowedInt 4 7 = true ↔ -(2 ^ (4 - 1) : Int) ≤ 7 ∧ (7 : Int) ≤ 2 ^ (4 - 1) - 1) ∧
    (allowedUInt 4 7 = true ↔ (0 : Int) ≤ 7 ∧ (7 : Int) ≤ 2 ^ 4 - 1) ∧
    (allowedBipolar 7 = true ↔ ((7 : Int) = -1 ∨ (7 : Int) = 1)) ∧
    (allowedTernary 7 = true ↔ ((7 : Int) = -1 ∨ (7 : Int) = 0 ∨ (7 : Int) = 1)) :=
  allowed_iff_specified_domain 4 (by omega) (by omega) 7

/-- C6 (counterexample): for the unsigned variant of bit-width 63 the
code's `double` comparison accepts `v = 2^63`, which lies outside the
specified domain `[0, 2^63 − 1]` (the bound `2^63 − 1` rounds up to `2^63`
when cast to `double`); `v = 2^63` is representable in `T = uint64_t`. -/
theorem allowedUInt63_accepts_out_of_domain :
    allowedUInt 63 (2 ^ 63) = true ∧ ¬ ((2 ^ 63 : Int) ≤ 2 ^ 63 - 1) := by
  constructor
  · decide
  · decide

/-! ### C7: required host elements -/

/-- C7 (amended): for every datatype bit-width `b ≤ 2^24` (the range in
which the `float` conversion is exact) and every host word width `w > 0`,
`requiredElements` returns `⌈b/w⌉` — characterized by
`b ≤ q·w` and `(q−1)·w < b` — and in particular returns 1 when `b ≤ w`.
For `b > 2^24` the `float` conversion of `b` rounds first (see the
counterexample). -/
theorem requiredElements_eq_ceil (b w : Nat) (hb : 0 < b) (hb24 : b ≤ 2 ^ 24)
    (hw : 0 < w) :
    (b ≤ w → requiredElements b w = 1) ∧
    b ≤ requiredElements b w * w ∧
    (requiredElements b w - 1) * w < b := by
  have hfl : fl 24 b = b := by
    rcases Nat.lt_or_ge b (2 ^ 24) with h | h
    · exact fl_eq_of_lt h
    · have hb' : b = 2 ^ 24 := by omega
      subst hb'
      decide
  have hkey : b ≤ requiredElements b w * w ∧ (requiredElements b w - 1) * w < b := by
    unfold requiredElements
    split_ifs with hlt
    · constructor
      · omega
      · simpa using hb
    · rw [hfl]
      have hdm := Nat.div_add_mod (b + (w - 1)) w
      have hmlt : (b + (w - 1)) % w < w := Nat.mod_lt _ hw
      have hq1 : 1 ≤ (b + (w - 1)) / w := by
        rw [Nat.le_div_iff_mul_le hw]
        omega
      have hsub : ((b + (w - 1)) / w - 1) * w = (b + (w - 1)) / w * w - w := by
        rw [Nat.sub_mul, one_mul]
      have hcomm : (b + (w - 1)) / w * w = w * ((b + (w - 1)) / w) :=
        Nat.mul_comm _ _
      rw [hsub, hcomm]
      have hkw : w ≤ w * ((b + (w - 1)) / w) := by
        calc w = w * 1 := (Nat.mul_one w).symm
        _ ≤ w * ((b + (w - 1)) / w) := Nat.mul_le_mul_left _ hq1
      set k := w * ((b + (w - 1)) / w) with hk
      omega
  refine ⟨?_, hkey.1, hkey.2⟩
  intro hble
  have h2 := hkey.2
  have h1 := hkey.1
  -- from (q−1)*w < b ≤ w conclude q ≤ 1, from b ≤ q*w and b > 0 conclude q ≥ 1
  by_contra hne
  rcases Nat.lt_or_ge (requiredElements b w) 1 with hq0 | hq2
  · have : requiredElements b w = 0 := by omega
    rw [this] at h1
    simp at h1
    omega
  · have hq2' : 2 ≤ requiredElements b w := by omega
    have : w ≤ (requiredElements b w - 1) * w := by
      have h1w : 1 * w ≤ (requiredElements b w - 1) * w :=
        Nat.mul_le_mul_right _ (by omega)
      omega
    omega

/-- C7 (witness): the amended statement applied at `b = 14`, `w = 8`. -/
theorem requiredElements_eq_ceil_witness :
    (14 ≤ 8 → requiredElements 14 8 = 1) ∧
    14 ≤ requiredElements 14 8 * 8 ∧
    (requiredElements 14 8 - 1) * 8 < 14 :=
  requiredElements_eq_ceil 14 8 (by omega) (by decide) (by omega)

/-- C7 (counterexample): for bit-width `b = 2^24 + 1` and `w = 8` the code
returns `⌈fl(b)/8⌉ = 2^21` (the `float` conversion rounds `2^24 + 1` down
to `2^24`), while `⌈b/w⌉ = 2^21 + 1`. -/
theorem requiredElements_rounds_above_2pow24 :
    requiredElements (2 ^ 24 + 1) 8 = 2097152 ∧
    (2 ^ 24 + 1 + 8 - 1) / 8 = 2097153 ∧
    (2097152 : Nat) ≠ 2097153 := by
  refine ⟨by decide, by decide, by decide⟩

/-! ### C10: ring-buffer construction -/

/-- C10: constructing a ring buffer with `parts * elementsPerPart = 0`
raises an error, and every successfully constructed ring buffer has
strictly positive capacity. -/
theorem mkRingBuffer_positive_capacity (p e : Nat) :
    (p * e = 0 →
      mkRingBuffer p e = .error "It is not possible to create a buffer of size 0!") ∧
    (∀ rb, mkRingBuffer p e = .ok rb → 0 < rb.capacity) := by
  constructor
  · intro h
    have h' : e * p = 0 := by rw [Nat.mul_comm] at h; exact h
    simp [mkRingBuffer, h']
  · intro rb h
    unfold mkRingBuffer at h
    split_ifs at h with h0
    simp only [Except.ok.injEq] at h
    subst h
    simp only [RingBuffer.capacity]
    omega

/-- C10 (witness): the theorem applied at `(0, 5)` and at `(2, 3)`. -/
theorem mkRingBuffer_positive_capacity_witness :
    mkRingBuffer 0 5 = .error "It is not possible to create a buffer of size 0!" ∧
    0 < (⟨2, 3, []⟩ : RingBuffer).capacity :=
  ⟨(mkRingBuffer_positive_capacity 0 5).1 rfl,
   (mkRingBuffer_positive_capacity 2 3).2 ⟨2, 3, []⟩ rfl⟩

/-! ### C9: ring-buffer store semantics -/

/-- C9 (amended): for a single-threaded ring buffer, `store(src, len)`
raises a `LengthError` exactly when `len` is not a multiple of `P`; it
raises a `CapacityError` exactly when `len` **is** a multiple of `P` and
exceeds `N·P` (a length violation is checked first and shadows the
capacity check); otherwise it returns `false` without modifying the ring
exactly when `len` exceeds the free space, and `true` with the data
appended exactly when it does not. -/
theorem ringBuffer_store_spec (rb : RingBuffer) (src : List Nat) :
    (rb.store src = .error .lengthError ↔
      src.length % rb.elementsPerPart ≠ 0) ∧
    (rb.store src = .error .capacityError ↔
      src.length % rb.elementsPerPart = 0 ∧ rb.capacity < src.length) ∧
    (rb.store src = .ok (false, rb) ↔
      src.length % rb.elementsPerPart = 0 ∧ src.length ≤ rb.capacity ∧
        rb.freeSpace < src.length) ∧
    (rb.store src = .ok (true, { rb with data := rb.data ++ src }) ↔
      src.length % rb.elementsPerPart = 0 ∧ src.length ≤ rb.freeSpace) := by
  have hfs : rb.freeSpace ≤ rb.capacity := Nat.sub_le _ _
  simp only [RingBuffer.store]
  split_ifs with h1 h2 h3 <;>
    refine ⟨?_, ?_, ?_, ?_⟩ <;>
    simp_all <;>
    omega

/-- C9 (counterexample): with `P = 2`, `N = 1` and `len = 3 > N·P = 2`,
the claim demands a `CapacityError`, but the code raises the
`LengthError` (checked first, since `3 % 2 ≠ 0`). -/
theorem ringBuffer_store_capacity_claim_fails :
    (⟨1, 2, []⟩ : RingBuffer).store [5, 6, 7] = .error .lengthError ∧
    (⟨1, 2, []⟩ : RingBuffer).capacity < 3 ∧
    (⟨1, 2, []⟩ : RingBuffer).store [5, 6, 7] ≠ .error .capacityError := by
  have h : (⟨1, 2, []⟩ : RingBuffer).store [5, 6, 7] = .error .lengthError := rfl
  refine ⟨h, by decide, ?_⟩
  rw [h]
  intro hc
  injection hc with hc'
  exact StoreError.noConfusion hc'
/-! ### C8: ring-buffer occupancy invariant -/

theorem store_true_inversion (rb rb' : RingBuffer) (src : List Nat)
    (h : rb.store src = .ok (true, rb')) :
    src.length % rb.elementsPerPart = 0 ∧
    src.length ≤ rb.freeSpace ∧
    rb' = { rb with data := rb.data ++ src } := by
  by_cases g1 : src.length % rb.elementsPerPart ≠ 0
  · rw [show rb.store src = .error .lengthError by
      simp [RingBuffer.store, g1]] at h
    exact Except.noConfusion h
  · push_neg at g1
    by_cases g2 : rb.capacity < src.length
    · rw [show rb.store src = .error .capacityError by
        simp [RingBuffer.store, g1, g2]] at h
      exact Except.noConfusion h
    · by_cases g3 : rb.freeSpace < src.length
      · rw [show rb.store src = .ok (false, rb) by
          simp [RingBuffer.store, g1, g2, g3]] at h
        simp only [Except.ok.injEq, Prod.mk.injEq] at h
        exact absurd h.1 (by simp)
      · rw [show rb.store src
            = .ok (true, { rb with data := rb.data ++ src }) by
          simp [RingBuffer.store, g1, g2, g3]] at h
        simp only [Except.ok.injEq, Prod.mk.injEq] at h
        push_neg at g3
        exact ⟨g1, g3, h.2.symm⟩

theorem readOne_inversion (rb rb' : RingBuffer) (out : List Nat)
    (h : rb.readOne = some (out, rb')) :
    rb.elementsPerPart ≤ rb.data.length ∧
    rb' = { rb with data := rb.data.drop rb.elementsPerPart } := by
  by_cases g : rb.data.length < rb.elementsPerPart
  · rw [show rb.readOne = none by simp [RingBuffer.readOne, g]] at h
    exact Option.noConfusion h
  · rw [show rb.readOne = some (rb.data.take rb.elementsPerPart,
        { rb with data := rb.data.drop rb.elementsPerPart }) by
      simp [RingBuffer.readOne, g]] at h
    simp only [Option.some.injEq, Prod.mk.injEq] at h
    exact ⟨by omega, h.2.symm⟩

theorem ringBuffer_exec_invariant (e : Nat) (he : 0 < e) :
    ∀ (ops : List RingOp) (a b : RingBuffer),
      a.elementsPerPart = e →
      e ∣ a.data.length →
      a.data.length ≤ a.capacity →
      a.exec ops = some b →
      b.parts = a.parts ∧ b.elementsPerPart = e ∧
      e ∣ b.data.length ∧ b.data.length ≤ a.capacity ∧
      b.data.length / e + readParts ops =
        a.data.length / e + storedParts e ops := by
  intro ops
  induction ops with
  | nil =>
    intro a b hep hdvd hcap hexec
    simp only [RingBuffer.exec, Option.some.injEq] at hexec
    subst hexec
    simp [readParts, storedParts, hep, hdvd, hcap]
  | cons op ops ih =>
    intro a b hep hdvd hcap hexec
    cases op with
    | store src =>
      simp only [RingBuffer.exec] at hexec
      split at hexec
      · rename_i rb' heq
        obtain ⟨hmod, hfree, hrb'⟩ := store_true_inversion a rb' src heq
        subst hrb'
        have hsrc : e ∣ src.length :=
          Nat.dvd_of_mod_eq_zero (by rw [← hep]; exact hmod)
        have hlen : a.data.length + src.length ≤ a.capacity := by
          have hfs : a.freeSpace = a.capacity - a.data.length := rfl
          omega
        have hrec := ih { a with data := a.data ++ src } b hep
          (by
            show e ∣ (a.data ++ src).length
            rw [List.length_append]
            exact Nat.dvd_add hdvd hsrc)
          (by
            show (a.data ++ src).length ≤ a.capacity
            rw [List.length_append]
            exact hlen)
          hexec
        obtain ⟨hb1, hb2, hb3, hb4, hb5⟩ := hrec
        refine ⟨hb1, hb2, hb3, hb4, ?_⟩
        obtain ⟨la, hla⟩ := hdvd
        obtain ⟨ls, hls⟩ := hsrc
        have hb5' : b.data.length / e + readParts ops
            = (a.data ++ src).length / e + storedParts e ops := hb5
        rw [List.length_append, hla, hls, ← Nat.mul_add,
          Nat.mul_div_cancel_left _ he] at hb5'
        simp only [readParts, storedParts]
        have hdA : a.data.length / e = la := by
          rw [hla]
          exact Nat.mul_div_cancel_left _ he
        have hdS : src.length / e = ls := by
          rw [hls]
          exact Nat.mul_div_cancel_left _ he
        rw [hdA, hdS]
        omega
      · exact Option.noConfusion hexec
      · exact Option.noConfusion hexec
    | readOne =>
      simp only [RingBuffer.exec] at hexec
      split at hexec
      · rename_i out rb' heq
        obtain ⟨hge, hrb'⟩ := readOne_inversion a rb' out heq
        subst hrb'
        rw [hep] at hge
        obtain ⟨la, hla⟩ := hdvd
        obtain ⟨lb, rfl⟩ : ∃ lb, la = lb + 1 := by
          refine ⟨la - 1, ?_⟩
          rcases Nat.eq_zero_or_pos la with h0 | h1
          · exfalso
            rw [h0, Nat.mul_zero] at hla
            omega
          · omega
        have hdroplen : (a.data.drop a.elementsPerPart).length = e * lb := by
          rw [List.length_drop, hep, hla, Nat.mul_succ]
          omega
        have hrec := ih { a with data := a.data.drop a.elementsPerPart } b hep
          (⟨lb, hdroplen⟩)
          (by
            show (a.data.drop a.elementsPerPart).length ≤ a.capacity
            rw [hdroplen]
            calc e * lb ≤ e * (lb + 1) := Nat.mul_le_mul_left e (by omega)
            _ = a.data.length := hla.symm
            _ ≤ a.capacity := hcap)
          hexec
        obtain ⟨hb1, hb2, hb3, hb4, hb5⟩ := hrec
        refine ⟨hb1, hb2, hb3, hb4, ?_⟩
        have hb5' : b.data.length / e + readParts ops
            = (a.data.drop a.elementsPerPart).length / e + storedParts e ops := hb5
        rw [hdroplen, Nat.mul_div_cancel_left _ he] at hb5'
        simp only [readParts, storedParts]
        have hdA : a.data.length / e = lb + 1 := by
          rw [hla]
          exact Nat.mul_div_cancel_left _ he
        rw [hdA]
        omega
      · exact Option.noConfusion hexec

/-- C8: for every successfully constructed ring buffer `R(P, N)` and every
finite sequence of successful `store`/`read` operations starting from the
empty ring, the occupancy in parts satisfies `0 ≤ occupancy ≤ N` and
`occupancy = parts stored − parts read`
(stated subtraction-free as `occupancy + parts read = parts stored`). -/
theorem ringBuffer_occupancy_invariant (p e : Nat) (rb0 rb : RingBuffer)
    (ops : List RingOp) (h0 : mkRingBuffer p e = .ok rb0)
    (h : rb0.exec ops = some rb) :
    rb.occupancy + readParts ops = storedParts e ops ∧ rb.occupancy ≤ p := by
  unfold mkRingBuffer at h0
  split_ifs at h0 with hz
  simp only [Except.ok.injEq] at h0
  subst h0
  have he : 0 < e := by
    rcases Nat.eq_zero_or_pos e with h' | h'
    · exfalso
      apply hz
      rw [h', Nat.zero_mul]
    · exact h'
  have hinv := ringBuffer_exec_invariant e he ops
    { parts := p, elementsPerPart := e, data := [] } rb rfl (by simp) (by simp) h
  obtain ⟨hb1, hb2, hb3, hb4, hb5⟩ := hinv
  have hocc : rb.occupancy = rb.data.length / e := by
    simp [RingBuffer.occupancy, hb2]
  constructor
  · rw [hocc]
    simpa using hb5
  · rw [hocc]
    have hcap : ({ parts := p, elementsPerPart := e, data := [] } :
        RingBuffer).capacity = e * p := rfl
    rw [hcap] at hb4
    calc rb.data.length / e ≤ e * p / e := Nat.div_le_div_right hb4
    _ = p := Nat.mul_div_cancel_left _ he

/-- C8 (witness): the theorem applied to the ring `R(P=1, N=2)` and the
operation sequence `store` one part, `read` one part. -/
theorem ringBuffer_occupancy_invariant_witness :
    (⟨2, 1, []⟩ : RingBuffer).occupancy
        + readParts [RingOp.store [5], RingOp.readOne]
      = storedParts 1 [RingOp.store [5], RingOp.readOne] ∧
    (⟨2, 1, []⟩ : RingBuffer).occupancy ≤ 2 :=
  ringBuffer_occupancy_invariant 2 1 ⟨2, 1, []⟩ ⟨2, 1, []⟩
    [RingOp.store [5], RingOp.readOne] rfl (by decide)

/-! ### C1: device input buffer `run` -/

theorem exists_offset_mod (parts r j : Nat) (hj : j < parts) :
    ∃ i, i < parts ∧ (r + i) % parts = j := by
  have hp : 0 < parts := by omega
  have hr' : r % parts < parts := Nat.mod_lt _ hp
  refine ⟨if r % parts ≤ j then j - r % parts else parts + j - r % parts, ?_, ?_⟩
  · split_ifs <;> omega
  · rw [Nat.add_mod]
    have hi : (if r % parts ≤ j then j - r % parts else parts + j - r % parts)
        % parts
        = (if r % parts ≤ j then j - r % parts else parts + j - r % parts) := by
      apply Nat.mod_eq_of_lt
      split_ifs <;> omega
    rw [hi]
    split_ifs with hle
    · have hsum : r % parts + (j - r % parts) = j := by omega
      rw [hsum, Nat.mod_eq_of_lt hj]
    · have hsum : r % parts + (parts + j - r % parts) = parts + j := by omega
      rw [hsum, Nat.add_mod_left, Nat.mod_eq_of_lt hj]

theorem findValidOffset_isSome_iff (rb : LegacyRingBuffer)
    (hlen : rb.validParts.length = rb.parts) :
    (rb.findValidOffset).isSome = true ↔ rb.hasValid = true := by
  unfold LegacyRingBuffer.findValidOffset LegacyRingBuffer.hasValid
  rw [List.find?_isSome, List.any_eq_true]
  constructor
  · rintro ⟨i, hi, hp⟩
    by_cases hjl : (rb.readPart + i) % rb.parts < rb.validParts.length
    · rw [List.getD_eq_getElem _ _ hjl] at hp
      exact ⟨rb.validParts[(rb.readPart + i) % rb.parts],
        List.getElem_mem hjl, by simpa using hp⟩
    · rw [List.getD_eq_getElem?_getD, List.getElem?_eq_none (by omega)] at hp
      simp at hp
  · rintro ⟨x, hx, hpx⟩
    rw [List.mem_iff_getElem] at hx
    obtain ⟨j, hjl, hgj⟩ := hx
    have hjp : j < rb.parts := by omega
    obtain ⟨i, hip, heq⟩ := exists_offset_mod rb.parts rb.readPart j hjp
    refine ⟨i, List.mem_range.mpr hip, ?_⟩
    rw [heq, List.getD_eq_getElem _ _ (by omega : j < rb.validParts.length)]
    exact hgj.trans (by simpa using hpx)

theorem run_map_fst_eq_findValid (s : DeviceBufferState) (ert : ErtState)
    (hms : s.mapSize = s.ring.elementsPerPart) :
    (s.run ert).map Prod.fst = .ok (s.ring.findValidOffset).isSome := by
  unfold DeviceBufferState.run LegacyRingBuffer.read
  rw [if_neg (by omega : ¬ s.mapSize ≠ s.ring.elementsPerPart)]
  rcases hf : s.ring.findValidOffset with _ | i
  · rfl
  · rfl

/-- C1 (amended): `run()` on a device input buffer returns `true` iff a
complete (valid) part was available in the ring; the kernel-run that `run`
submits is awaited but its terminal state is never inspected, so it does
not influence the return value.  In particular `run()` returns `false`
whenever the ring holds no complete part. -/
theorem deviceInputBuffer_run_true_iff_part_available (s : DeviceBufferState)
    (ert : ErtState) (hms : s.mapSize = s.ring.elementsPerPart)
    (hlen : s.ring.validParts.length = s.ring.parts) :
    (s.run ert).map Prod.fst = .ok true ↔ s.ring.hasValid = true := by
  rw [run_map_fst_eq_findValid s ert hms,
    ← findValidOffset_isSome_iff s.ring hlen]
  simp

/-- C1 (witness): the amended statement applied to a one-part buffer whose
ring holds a valid part, with the kernel-run completing normally. -/
theorem deviceInputBuffer_run_true_iff_part_available_witness :
    ((⟨1, [0], ⟨[7], [true], 0, 0, 1, 1⟩⟩ : DeviceBufferState).run
        .completed).map Prod.fst = .ok true :=
  (deviceInputBuffer_run_true_iff_part_available _ .completed rfl rfl).mpr
    (by decide)

/-- C1 (counterexample): with a part available in the ring and the awaited
kernel-run ending in the error terminal state, `run()` still returns `true`
— `execute()` discards the state returned by `run.wait()` — although the
claim demands `false` whenever the terminal state is an error. -/
theorem run_returns_true_despite_error_state :
    ((⟨1, [0], ⟨[7], [true], 0, 0, 1, 1⟩⟩ : DeviceBufferState).run
        .err).map Prod.fst = .ok true ∧
    (⟨[7], [true], 0, 0, 1, 1⟩ : LegacyRingBuffer).hasValid = true := by
  refine ⟨rfl, rfl⟩

/-! ### C2: `size(ELEMENTS_PER_PART)` of a device buffer -/

theorem lt_two_pow_bitLen {n : Nat} (h : n < 2 ^ 128) : n < 2 ^ bitLen n :=
  lt_two_pow_bitLenAux 128 n h

/-- C2 (amended): for every device buffer successfully constructed from a
validated descriptor, `size(ELEMENTS_PER_PART)` equals
`getActualBufferSize(packed element count)` — the packed element count
rounded up to a page-aligned power-of-two allocation of at least 4096
elements — rather than the packed element count itself; in particular it
is an upper bound on the packed element count and at least 4096. -/
theorem deviceBuffer_size_elementsPerPart (bitwF wT : Nat)
    (shapeNormal shapeFolded shapePacked : List Nat) (factor : Nat)
    (db : DeviceBufferState) (hsmall : shapeToElements shapePacked ≤ 2 ^ 64)
    (h : mkDeviceBuffer bitwF wT shapeNormal shapeFolded shapePacked factor
      = .ok db) :
    db.size .elementsPerPart = getActualBufferSize (shapeToElements shapePacked) ∧
    shapeToElements shapePacked ≤ db.size .elementsPerPart ∧
    4096 ≤ db.size .elementsPerPart := by
  simp only [mkDeviceBuffer] at h
  split_ifs at h with h1 h2
  simp only [Except.ok.injEq] at h
  subst h
  refine ⟨rfl, ?_, ?_⟩
  · show shapeToElements shapePacked
      ≤ getActualBufferSize (shapeToElements shapePacked)
    unfold getActualBufferSize
    rcases Nat.eq_zero_or_pos (shapeToElements shapePacked) with h0 | hpos
    · rw [h0]
      exact Nat.zero_le _
    · have hlt : shapeToElements shapePacked - 1 < 2 ^ 128 := by
        have h64 : (2 : Nat) ^ 64 < 2 ^ 128 := by norm_num
        omega
      have hpow := lt_two_pow_bitLen hlt
      have h2p : shapeToElements shapePacked
          ≤ 2 ^ bitLen (shapeToElements shapePacked - 1) := by omega
      exact le_trans h2p (le_max_right _ _)
  · exact le_max_left _ _

/-- C2 (witness): the amended statement applied to a buffer built from the
validated descriptor with folded shape `[1, 10]`, packed shape `[1, 3]`,
2-bit datatype, 8-bit host words, ring factor 1. -/
theorem deviceBuffer_size_elementsPerPart_witness :
    (⟨4096, List.replicate 4096 0, mkLegacyRingBuffer 1 4096⟩ :
          DeviceBufferState).size .elementsPerPart
        = getActualBufferSize (shapeToElements [1, 3]) ∧
    shapeToElements [1, 3]
        ≤ (⟨4096, List.replicate 4096 0, mkLegacyRingBuffer 1 4096⟩ :
          DeviceBufferState).size .elementsPerPart ∧
    4096 ≤ (⟨4096, List.replicate 4096 0, mkLegacyRingBuffer 1 4096⟩ :
          DeviceBufferState).size .elementsPerPart :=
  deviceBuffer_size_elementsPerPart 2 8 [1, 10] [1, 10] [1, 3] 1 _
    (by decide) rfl

/-- C2 (counterexample): the same validated descriptor has packed element
count `3`, but `size(ELEMENTS_PER_PART)` is the page-aligned allocation
size `4096`, so the two differ. -/
theorem deviceBuffer_size_not_packed_count :
    (mkDeviceBuffer 2 8 [1, 10] [1, 10] [1, 3] 1).map
      (fun db => db.size .elementsPerPart) = .ok 4096 ∧
    shapeToElements [1, 3] = 3 ∧ (4096 : Nat) ≠ 3 := by
  refine ⟨rfl, rfl, by omega⟩

/-! ### C3: archiving the output ring -/

/-- C3: on an output buffer whose ring (capacity 2 parts of 1 element)
holds exactly one valid part with byte `7`, `archiveValidBufferParts()`
extends the archive by **two** zero-filled entries — the loop runs over the
ring's capacity, and the read data is written to a by-value copy of
`longTermStorage.back()` and lost — and the part is still valid afterwards
because legacy `read` re-marks it valid.  The claim demands exactly one new
entry `[7]` and no valid parts afterwards. -/
theorem archiveValidBufferParts_zero_entries_and_validity :
    (⟨[7, 0], [true, false], 1, 0, 2, 1⟩ : LegacyRingBuffer).countValidParts
        = 1 ∧
    ((⟨⟨[7, 0], [true, false], 1, 0, 2, 1⟩, []⟩ :
        OutputBufferState).archiveValidBufferParts).longTermStorage
        = [[0], [0]] ∧
    ((⟨⟨[7, 0], [true, false], 1, 0, 2, 1⟩, []⟩ :
        OutputBufferState).archiveValidBufferParts).ring.countValidParts
        = 1 := by
  refine ⟨by decide, by decide, by decide⟩

/-! ### C4: unknown-name error messages -/

/-- C4: dispatching `store` (input direction) or `retrieve` (output
direction) with the unconfigured kernel name `"nope"` on a handler whose
input buffer is `"idma0"` and output buffer is `"odma0"` raises an error
whose message contains the offending name but **not** the configured names
of the addressed direction: the `std::accumulate` call that folds the names
into a string has its result discarded, so the message ends with the bare
header `"Existing buffer names:"`. -/
theorem unknown_name_error_lacks_configured_names :
    DeviceHandlerNames.storeLookup ⟨["idma0"], ["odma0"]⟩ "nope"
        = .error (storeErrorMessage "nope") ∧
    strContains (storeErrorMessage "nope") "nope" = true ∧
    strContains (storeErrorMessage "nope") "idma0" = false ∧
    DeviceHandlerNames.retrieveLookup ⟨["idma0"], ["odma0"]⟩ "nope"
        = .error (retrieveErrorMessage "nope") ∧
    strContains (retrieveErrorMessage "nope") "nope" = true ∧
    strContains (retrieveErrorMessage "nope") "odma0" = false := by
  refine ⟨rfl, by decide, by decide, rfl, by decide, by decide⟩

/-! ### C5: force-archive plumbing of `inferSynchronous` -/

/-- C5: on a driver whose stored default force-archive flag is `false` and
an output buffer with one buffered ring part `[7]` and an empty archive,
the vector overload of `inferSynchronous` called with the explicit argument
`forceArchival = true` performs retrieval with the stored default (`false`)
instead — it returns the empty archive, while the iterator overload with
the same explicit argument returns the drained part; the no-argument
overloads use the stored default as specified. -/
theorem inferSynchronousVec_uses_stored_default :
    inferSynchronousVec ⟨false⟩ ⟨[[7]], []⟩ true = [] ∧
    inferSynchronousIter ⟨false⟩ ⟨[[7]], []⟩ true = [[7]] ∧
    inferSynchronousVec ⟨false⟩ ⟨[[7]], []⟩ true
        ≠ inferRawModel ⟨[[7]], []⟩ true ∧
    inferSynchronousVecDefault ⟨false⟩ ⟨[[7]], []⟩ = [] ∧
    inferSynchronousIterDefault ⟨false⟩ ⟨[[7]], []⟩ = [] := by
  refine ⟨rfl, rfl, by decide, rfl, rfl⟩

end Finn
